import Mathlib

/-!
Verification development for the blockchain demo (src/blockchain.py).

The Python code is shallowly embedded as follows:
* Payloads (`data`: JSON-serializable Python values) become the inductive
  type `Json`; Python ints are modelled by `Int`.  Timestamps are modelled
  as integers (their float formatting plays no role in any property here).
* `json.dumps(d, sort_keys=True)` (with its default separators `", "` and
  `": "` and `ensure_ascii=True` escaping) becomes `dumps`, implemented as
  recursive key-sorting (`canon`) followed by plain rendering (`dumpJson`);
  sorting every mapping's keys first and then rendering is the same
  function as rendering with keys sorted on the fly.
* The `hashlib` digests are external library primitives, not code of this
  repository; they are abstracted as a parameter
  `H : String → String → String` (algorithm name, input string ↦ hex
  digest).  `Block.calculate_hash`'s dispatch over the algorithm tag —
  including its silent fallback to sha256 on an unrecognized tag — is
  embedded faithfully in `hashDispatch`.
* The unbounded mining loop `Blockchain.mine_block` becomes the fuel-based
  `mineLoop` (Python nontermination corresponds to `none`).
* `chain[-1]` / `chain[0]` accesses that would raise `IndexError` on an
  empty list are modelled with `Option`.
-/

namespace BC

/-- JSON-like payload values (string, number, boolean, null, mapping with
string keys in insertion order, or sequence).  Python ints are modelled by
`Int`. -/
inductive Json where
  | null : Json
  | bool (b : Bool) : Json
  | num (n : Int) : Json
  | str (s : String) : Json
  | arr (xs : List Json) : Json
  | obj (kvs : List (String × Json)) : Json

/-- Lowercase hexadecimal digit, as used by Python's `\uXXXX` escapes. -/
def hexDigitCh (n : Nat) : Char :=
  if n < 10 then Char.ofNat (48 + n) else Char.ofNat (87 + n)

/-- Four lowercase hex digits. -/
def hex4 (n : Nat) : String :=
  String.mk [hexDigitCh (n / 4096 % 16), hexDigitCh (n / 256 % 16),
             hexDigitCh (n / 16 % 16), hexDigitCh (n % 16)]

/-- Escaping of a single character inside a JSON string literal, following
`json.dumps` with its default `ensure_ascii=True`: quote and backslash are
backslash-escaped, control characters use the short escapes or `\uXXXX`,
printable ASCII is kept literal, and all non-ASCII characters are written
as `\uXXXX` (with surrogate pairs beyond the BMP). -/
def escapeChar (c : Char) : String :=
  if c = '"' then "\\\""
  else if c = '\\' then "\\\\"
  else if c = '\n' then "\\n"
  else if c = '\r' then "\\r"
  else if c = '\t' then "\\t"
  else if c.toNat = 8 then "\\b"
  else if c.toNat = 12 then "\\f"
  else if c.toNat < 32 then "\\u" ++ hex4 c.toNat
  else if c.toNat < 128 then String.mk [c]
  else if c.toNat < 65536 then "\\u" ++ hex4 c.toNat
  else "\\u" ++ hex4 (55296 + (c.toNat - 65536) / 1024)
       ++ "\\u" ++ hex4 (56320 + (c.toNat - 65536) % 1024)

/-- JSON string literal rendering. -/
def escapeStr (s : String) : String :=
  "\"" ++ String.join (s.toList.map escapeChar) ++ "\""

/-- Lexicographic comparison of character sequences by code point — the
order Python uses to compare the key strings under `sort_keys=True`. -/
def charListLe : List Char → List Char → Bool
  | [], _ => true
  | _ :: _, [] => false
  | a :: as, b :: bs =>
    if a.toNat < b.toNat then true
    else if b.toNat < a.toNat then false
    else charListLe as bs

/-- Python's string comparison (by code points). -/
def strLe (a b : String) : Bool := charListLe a.toList b.toList

/-- Insert a key-value pair into a key-sorted list (insertion sort step),
comparing keys the way Python compares strings. -/
def insertPair (p : String × Json) : List (String × Json) → List (String × Json)
  | [] => [p]
  | q :: l => if strLe p.1 q.1 then p :: q :: l else q :: insertPair p l

/-- Sort a mapping's entries by key, as `sort_keys=True` does. -/
def sortPairs : List (String × Json) → List (String × Json)
  | [] => []
  | p :: l => insertPair p (sortPairs l)

mutual
/-- Recursively sort every mapping's entries by key.  This is the
canonicalization that `json.dumps(..., sort_keys=True)` applies to
mappings at every level. -/
def canon : Json → Json
  | Json.null => Json.null
  | Json.bool b => Json.bool b
  | Json.num n => Json.num n
  | Json.str s => Json.str s
  | Json.arr xs => Json.arr (canonList xs)
  | Json.obj l => Json.obj (sortPairs (canonPairs l))
termination_by structural j => j

/-- Canonicalize each element of a sequence. -/
def canonList : List Json → List Json
  | [] => []
  | x :: xs => canon x :: canonList xs
termination_by structural l => l

/-- Canonicalize each value of a mapping, keeping keys and their order. -/
def canonPairs : List (String × Json) → List (String × Json)
  | [] => []
  | (k, v) :: l => (k, canon v) :: canonPairs l
termination_by structural l => l
end

mutual
/-- Render a (canonicalized) JSON value with `json.dumps`'s default
separators `", "` and `": "`. -/
def dumpJson : Json → String
  | Json.null => "null"
  | Json.bool true => "true"
  | Json.bool false => "false"
  | Json.num n => toString n
  | Json.str s => escapeStr s
  | Json.arr xs => "[" ++ dumpArr xs ++ "]"
  | Json.obj l => "\x7b" ++ dumpObj l ++ "\x7d"
termination_by structural j => j

/-- Render sequence elements, comma-separated. -/
def dumpArr : List Json → String
  | [] => ""
  | [x] => dumpJson x
  | x :: y :: rest => dumpJson x ++ ", " ++ dumpArr (y :: rest)
termination_by structural l => l

/-- Render mapping entries, comma-separated. -/
def dumpObj : List (String × Json) → String
  | [] => ""
  | [(k, v)] => escapeStr k ++ ": " ++ dumpJson v
  | (k, v) :: q :: rest => escapeStr k ++ ": " ++ dumpJson v ++ ", " ++ dumpObj (q :: rest)
termination_by structural l => l
end

/-- Model of `json.dumps(j, sort_keys=True)`: sort all mapping keys
recursively, then render. -/
def dumps (j : Json) : String := dumpJson (canon j)

/-- A block of the chain (class `Block`). -/
structure Block where
  index : Int
  timestamp : Int
  data : Json
  previous_hash : String
  nonce : Int
  hash_algorithm : String
  hash : String

/-- The string that `Block.calculate_hash` feeds to the digest: the JSON
rendering, with sorted keys, of the mapping built from the five hashed
fields (in the source's insertion order). -/
def blockString (index timestamp : Int) (data : Json) (previous_hash : String)
    (nonce : Int) : String :=
  dumps (Json.obj [("index", Json.num index), ("timestamp", Json.num timestamp),
                   ("data", data), ("previous_hash", Json.str previous_hash),
                   ("nonce", Json.num nonce)])

/-- The algorithm dispatch of `Block.calculate_hash`: the five supported
tags select the corresponding digest, and any other tag silently falls
back to sha256 (the source's final `else` branch). -/
def hashDispatch (H : String → String → String) (alg s : String) : String :=
  if alg = "sha256" then H "sha256" s
  else if alg = "sha512" then H "sha512" s
  else if alg = "sha3-256" then H "sha3-256" s
  else if alg = "sha3-512" then H "sha3-512" s
  else if alg = "blake2b" then H "blake2b" s
  else H "sha256" s

/-- Digest of the five hashed fields under a given algorithm tag. -/
def calculateHashFields (H : String → String → String) (alg : String)
    (index timestamp : Int) (data : Json) (previous_hash : String)
    (nonce : Int) : String :=
  hashDispatch H alg (blockString index timestamp data previous_hash nonce)

/-- Method `Block.calculate_hash`: recompute the digest from the block's
current field values. -/
def Block.calculate_hash (H : String → String → String) (b : Block) : String :=
  calculateHashFields H b.hash_algorithm b.index b.timestamp b.data
    b.previous_hash b.nonce

/-- Constructor `Block.__init__`: store the fields and immediately compute
`hash` via `calculate_hash`. -/
def Block.init (H : String → String → String) (index timestamp : Int)
    (data : Json) (previous_hash : String) (nonce : Int)
    (hash_algorithm : String) : Block :=
  { index := index, timestamp := timestamp, data := data,
    previous_hash := previous_hash, nonce := nonce,
    hash_algorithm := hash_algorithm,
    hash := calculateHashFields H hash_algorithm index timestamp data
              previous_hash nonce }

/-- The blockchain (class `Blockchain`). -/
structure Blockchain where
  chain : List Block
  difficulty : Int
  hash_algorithm : String

/-- The PoW target `"0" * difficulty`; as in Python, a non-positive
difficulty yields the empty string. -/
def targetOf (d : Int) : String := String.mk (List.replicate d.toNat '0')

/-- Python's `str.startswith`. -/
def strStartsWith (s target : String) : Bool := target.toList.isPrefixOf s.toList

/-- `Blockchain.create_genesis_block`: index 0, sentinel payload,
previous hash `"0"`, nonce 0, hash computed directly (not mined). -/
def create_genesis_block (H : String → String → String)
    (hash_algorithm : String) (t : Int) : Block :=
  Block.init H 0 t (Json.str "Genesis Block - The beginning of the blockchain")
    "0" 0 hash_algorithm

/-- `Blockchain.__init__`: record difficulty and algorithm (no validation
of either), then create the genesis block. -/
def Blockchain.init (H : String → String → String) (difficulty : Int)
    (hash_algorithm : String) (t : Int) : Blockchain :=
  { chain := [create_genesis_block H hash_algorithm t],
    difficulty := difficulty, hash_algorithm := hash_algorithm }

/-- `Blockchain.get_latest_block`: `chain[-1]`, `none` on an empty list. -/
def Blockchain.get_latest_block (c : Blockchain) : Option Block :=
  c.chain.getLast?

/-- One iteration of the mining loop body: `nonce += 1` followed by
`hash = calculate_hash()` (with the updated nonce). -/
def mineStep (H : String → String → String) (b : Block) : Block :=
  { b with nonce := b.nonce + 1,
           hash := calculateHashFields H b.hash_algorithm b.index b.timestamp
                     b.data b.previous_hash (b.nonce + 1) }

/-- `Blockchain.mine_block`'s loop `while not block.hash.startswith(target)`,
with explicit fuel; `none` models nontermination within the given fuel. -/
def mineLoop (H : String → String → String) (target : String) :
    Nat → Block → Option Block
  | 0, b => if strStartsWith b.hash target then some b else none
  | fuel + 1, b =>
    if strStartsWith b.hash target then some b
    else mineLoop H target fuel (mineStep H b)

/-- `Blockchain.add_block`: build a candidate block with
`index = len(chain)`, the caller-supplied timestamp, the latest block's
hash as `previous_hash`, nonce 0 and the chain's algorithm; mine it; append
the result. -/
def Blockchain.add_block (H : String → String → String) (fuel : Nat)
    (c : Blockchain) (t : Int) (data : Json) : Option Blockchain :=
  match c.chain.getLast? with
  | none => none
  | some previous_block =>
    match mineLoop H (targetOf c.difficulty) fuel
        (Block.init H (Int.ofNat c.chain.length) t data previous_block.hash 0
          c.hash_algorithm) with
    | none => none
    | some b => some { c with chain := c.chain ++ [b] }

/-- Validation walk over blocks 1..n-1 (the loop of
`Blockchain.is_chain_valid`), carrying the predecessor: check (1) stored
hash equals recomputed hash, (2) previous_hash links to the predecessor,
(3) the hash meets the difficulty target; return false on the first
failure. -/
def validFrom (H : String → String → String) (d : Int) :
    Block → List Block → Bool
  | _, [] => true
  | prev, cur :: rest =>
    if cur.hash ≠ Block.calculate_hash H cur then false
    else if cur.previous_hash ≠ prev.hash then false
    else if strStartsWith cur.hash (targetOf d) = false then false
    else validFrom H d cur rest

/-- `Blockchain.is_chain_valid`: the genesis block is never checked; the
loop starts at index 1. -/
def Blockchain.is_chain_valid (H : String → String → String)
    (c : Blockchain) : Bool :=
  match c.chain with
  | [] => true
  | g :: rest => validFrom H c.difficulty g rest

/-- Which of the three ordered checks a block fails first (the failure
kinds printed by `is_chain_valid`). -/
inductive FailKind where
  | hashMismatch : FailKind
  | prevMismatch : FailKind
  | difficultyFail : FailKind
deriving DecidableEq

/-- The first failing check for one block against its predecessor, in the
source's check order; `none` when all three pass. -/
def diagPair (H : String → String → String) (d : Int) (prev cur : Block) :
    Option FailKind :=
  if cur.hash ≠ Block.calculate_hash H cur then some FailKind.hashMismatch
  else if cur.previous_hash ≠ prev.hash then some FailKind.prevMismatch
  else if strStartsWith cur.hash (targetOf d) = false then some FailKind.difficultyFail
  else none

/-- The validation walk again, but reporting the first failing block's
index and failure kind (the diagnostic side channel printed by
`is_chain_valid`). -/
def diagFrom (H : String → String → String) (d : Int) :
    Nat → Block → List Block → Option (Nat × FailKind)
  | _, _, [] => none
  | i, prev, cur :: rest =>
    if cur.hash ≠ Block.calculate_hash H cur then some (i, FailKind.hashMismatch)
    else if cur.previous_hash ≠ prev.hash then some (i, FailKind.prevMismatch)
    else if strStartsWith cur.hash (targetOf d) = false then
      some (i, FailKind.difficultyFail)
    else diagFrom H d (i + 1) cur rest

/-- First failing block (index, kind) of the whole chain, starting the
count at index 1 as the source loop does. -/
def Blockchain.validateDiag (H : String → String → String)
    (c : Blockchain) : Option (Nat × FailKind) :=
  match c.chain with
  | [] => none
  | g :: rest => diagFrom H c.difficulty 1 g rest

/-- All three checks for one block against its predecessor, as one
boolean. -/
def checkPair (H : String → String → String) (d : Int) (prev cur : Block) : Bool :=
  decide (cur.hash = Block.calculate_hash H cur) &&
  decide (cur.previous_hash = prev.hash) &&
  strStartsWith cur.hash (targetOf d)

/-- The three checks for block `i` of the chain, phrased over
position-indexed access (the `chain[i-1]` / `chain[i]` of the source
loop). -/
def checksPass (H : String → String → String) (c : Blockchain) (i : Nat) : Prop :=
  ∀ prev cur, c.chain[i - 1]? = some prev → c.chain[i]? = some cur →
    (cur.hash = Block.calculate_hash H cur ∧ cur.previous_hash = prev.hash ∧
     strStartsWith cur.hash (targetOf c.difficulty) = true)

/-- Overwrite the `data` field of the block at a position, leaving its
stored `hash` unchanged — the in-place payload mutation of the tamper
demo (`blockchain.chain[i].data = ...`). -/
def setDataAt : List Block → Nat → Json → List Block
  | [], _, _ => []
  | b :: rest, 0, d => { b with data := d } :: rest
  | b :: rest, i + 1, d => b :: setDataAt rest i d

/-- Tamper hook: overwrite block `i`'s payload without recomputing its
hash. -/
def Blockchain.tamperData (c : Blockchain) (i : Nat) (d : Json) : Blockchain :=
  { c with chain := setDataAt c.chain i d }

/-- Overwrite the `hash` field of the block at a position, leaving all
other fields unchanged (`blockchain.chain[i].hash = ...`). -/
def setHashAt : List Block → Nat → String → List Block
  | [], _, _ => []
  | b :: rest, 0, h => { b with hash := h } :: rest
  | b :: rest, i + 1, h => b :: setHashAt rest i h

/-- Tamper hook: overwrite block `i`'s stored hash directly. -/
def Blockchain.tamperHash (c : Blockchain) (i : Nat) (h : String) : Blockchain :=
  { c with chain := setHashAt c.chain i h }

/-- `Blockchain.get_chain_info` snapshot; `chain[-1]` and `chain[0]` are
modelled with `Option`. -/
structure ChainInfo where
  length : Nat
  difficulty : Int
  hash_algorithm : String
  latest_block_hash : String
  genesis_block_hash : String

/-- `Blockchain.get_chain_info`: `none` exactly when an empty-sequence
access would raise. -/
def Blockchain.get_chain_info (c : Blockchain) : Option ChainInfo :=
  match c.chain.getLast?, c.chain.head? with
  | some last, some g =>
      some { length := c.chain.length, difficulty := c.difficulty,
             hash_algorithm := c.hash_algorithm,
             latest_block_hash := last.hash, genesis_block_hash := g.hash }
  | _, _ => none

/-- Chains obtainable through the core interface: constructed by
`Blockchain.__init__` and extended only by successful `add_block` calls. -/
inductive Reachable (H : String → String → String) : Blockchain → Prop where
  | init (difficulty : Int) (hash_algorithm : String) (t : Int) :
      Reachable H (Blockchain.init H difficulty hash_algorithm t)
  | add (c : Blockchain) (fuel : Nat) (t : Int) (data : Json) (c' : Blockchain) :
      Reachable H c → c.add_block H fuel t data = some c' → Reachable H c'

mutual
/-- Payload values equal up to the insertion order of mapping keys,
recursively: atoms must be equal, sequences match pointwise, and mappings
(with distinct keys, as Python dicts have) match up to a permutation of
their entries with recursively equivalent values. -/
inductive KeyPermEquiv : Json → Json → Prop where
  | null : KeyPermEquiv Json.null Json.null
  | bool (b : Bool) : KeyPermEquiv (Json.bool b) (Json.bool b)
  | num (n : Int) : KeyPermEquiv (Json.num n) (Json.num n)
  | str (s : String) : KeyPermEquiv (Json.str s) (Json.str s)
  | arr (xs ys : List Json) : KeyPermList xs ys →
      KeyPermEquiv (Json.arr xs) (Json.arr ys)
  | obj (l₁ l₂ l₃ : List (String × Json)) : (l₁.map Prod.fst).Nodup →
      KeyPermPairs l₁ l₃ → l₃.Perm l₂ →
      KeyPermEquiv (Json.obj l₁) (Json.obj l₂)

/-- Pointwise equivalence of sequences. -/
inductive KeyPermList : List Json → List Json → Prop where
  | nil : KeyPermList [] []
  | cons (x y : Json) (xs ys : List Json) : KeyPermEquiv x y →
      KeyPermList xs ys → KeyPermList (x :: xs) (y :: ys)

/-- Pointwise equivalence of mapping entries: same keys in the same order,
equivalent values. -/
inductive KeyPermPairs : List (String × Json) → List (String × Json) → Prop where
  | nil : KeyPermPairs [] []
  | cons (k : String) (v w : Json) (xs ys : List (String × Json)) :
      KeyPermEquiv v w → KeyPermPairs xs ys →
      KeyPermPairs ((k, v) :: xs) ((k, w) :: ys)
end

/-- A concrete stand-in for `hashlib` used by closed witness statements:
an injective-looking tagging of the algorithm name onto the input. -/
def H1 : String → String → String := fun alg s => alg ++ ":" ++ s

/-- Last element of `prev :: l` (the predecessor that `get_latest_block`
returns for a nonempty chain). -/
def lastOf (prev : Block) : List Block → Block
  | [] => prev
  | b :: rest => lastOf b rest

/-- Invariant carried by every chain built through the core interface:
the chain is nonempty, validates, and every block's stored hash equals its
recomputed digest. -/
def GoodChain (H : String → String → String) (c : Blockchain) : Prop :=
  (∃ g rest, c.chain = g :: rest ∧ validFrom H c.difficulty g rest = true) ∧
  ∀ b ∈ c.chain, b.hash = Block.calculate_hash H b

/-- A concrete freshly constructed chain (difficulty 0) for closed
statements. -/
def chainA : Blockchain := Blockchain.init H1 0 "sha256" 0

/-- The chain `chainA` after one successful `add_block` call. -/
def chainB : Blockchain := (chainA.add_block H1 1 5 (Json.str "B1")).getD chainA

/-- The appended block of `chainB`. -/
def blockB : Block := chainB.chain.getLast?.getD (create_genesis_block H1 "sha256" 0)

section Lemmas

variable {H : String → String → String} {d : Int}

theorem checkPair_iff {prev cur : Block} :
    checkPair H d prev cur = true ↔
      (cur.hash = Block.calculate_hash H cur ∧ cur.previous_hash = prev.hash ∧
       strStartsWith cur.hash (targetOf d) = true) := by
  simp [checkPair, Bool.and_eq_true, decide_eq_true_iff, and_assoc]

theorem validFrom_cons_eq {prev cur : Block} {rest : List Block} :
    validFrom H d prev (cur :: rest) =
      (if cur.hash ≠ Block.calculate_hash H cur then false
       else if cur.previous_hash ≠ prev.hash then false
       else if strStartsWith cur.hash (targetOf d) = false then false
       else validFrom H d cur rest) := rfl

theorem diagFrom_cons_eq {i : Nat} {prev cur : Block} {rest : List Block} :
    diagFrom H d i prev (cur :: rest) =
      (if cur.hash ≠ Block.calculate_hash H cur then some (i, FailKind.hashMismatch)
       else if cur.previous_hash ≠ prev.hash then some (i, FailKind.prevMismatch)
       else if strStartsWith cur.hash (targetOf d) = false then
         some (i, FailKind.difficultyFail)
       else diagFrom H d (i + 1) cur rest) := rfl

theorem diagPair_none_iff {prev cur : Block} :
    diagPair H d prev cur = none ↔ checkPair H d prev cur = true := by
  rw [checkPair_iff]
  unfold diagPair
  by_cases h1 : cur.hash = Block.calculate_hash H cur
  · rw [if_neg (by simp only [ne_eq, h1, not_true_eq_false, not_false_eq_true])]
    by_cases h2 : cur.previous_hash = prev.hash
    · rw [if_neg (by simp only [ne_eq, h2, not_true_eq_false, not_false_eq_true])]
      cases h3 : strStartsWith cur.hash (targetOf d) with
      | false =>
        rw [if_pos rfl]
        simp [h1, h2]
      | true =>
        rw [if_neg (by simp)]
        simp [h1, h2]
    · rw [if_pos h2]
      simp [h2]
  · rw [if_pos h1]
    simp [h1]

theorem diagPair_some_hashMismatch {prev cur : Block}
    (h : cur.hash ≠ Block.calculate_hash H cur) :
    diagPair H d prev cur = some FailKind.hashMismatch := by
  unfold diagPair
  rw [if_pos h]

theorem diagPair_some_prevMismatch {prev cur : Block}
    (h1 : cur.hash = Block.calculate_hash H cur)
    (h2 : cur.previous_hash ≠ prev.hash) :
    diagPair H d prev cur = some FailKind.prevMismatch := by
  unfold diagPair
  rw [if_neg (by simp only [ne_eq, h1, not_true_eq_false, not_false_eq_true]),
      if_pos h2]

theorem validFrom_cons {prev cur : Block} {rest : List Block} :
    validFrom H d prev (cur :: rest) =
      (checkPair H d prev cur && validFrom H d cur rest) := by
  rw [validFrom_cons_eq]
  unfold checkPair
  by_cases h1 : cur.hash = Block.calculate_hash H cur
  · rw [if_neg (by simp only [ne_eq, h1, not_true_eq_false, not_false_eq_true]),
        decide_eq_true h1]
    by_cases h2 : cur.previous_hash = prev.hash
    · rw [if_neg (by simp only [ne_eq, h2, not_true_eq_false, not_false_eq_true]),
          decide_eq_true h2]
      cases h3 : strStartsWith cur.hash (targetOf d) with
      | false => rw [if_pos rfl]; simp
      | true => rw [if_neg (by simp)]; simp
    · rw [if_pos h2, decide_eq_false h2]
      simp
  · rw [if_pos h1, decide_eq_false h1]
    simp

theorem diagFrom_cons_fail {i : Nat} {prev cur : Block} {rest : List Block}
    {f : FailKind} (h : diagPair H d prev cur = some f) :
    diagFrom H d i prev (cur :: rest) = some (i, f) := by
  unfold diagPair at h
  rw [diagFrom_cons_eq]
  by_cases h1 : cur.hash = Block.calculate_hash H cur
  · rw [if_neg (by simp only [ne_eq, h1, not_true_eq_false, not_false_eq_true])] at h ⊢
    by_cases h2 : cur.previous_hash = prev.hash
    · rw [if_neg (by simp only [ne_eq, h2, not_true_eq_false, not_false_eq_true])] at h ⊢
      cases h3 : strStartsWith cur.hash (targetOf d) with
      | false =>
        rw [h3, if_pos rfl] at h
        rw [if_pos rfl, Option.some.inj h]
      | true =>
        rw [h3] at h
        rw [if_neg (by simp)] at h
        exact absurd h (by simp)
    · rw [if_pos h2] at h ⊢
      rw [Option.some.inj h]
  · rw [if_pos h1] at h ⊢
    rw [Option.some.inj h]

theorem diagFrom_cons_pass {i : Nat} {prev cur : Block} {rest : List Block}
    (h : diagPair H d prev cur = none) :
    diagFrom H d i prev (cur :: rest) = diagFrom H d (i + 1) cur rest := by
  rw [diagPair_none_iff, checkPair_iff] at h
  obtain ⟨h1, h2, h3⟩ := h
  rw [diagFrom_cons_eq,
      if_neg (by simp only [ne_eq, h1, not_true_eq_false, not_false_eq_true]),
      if_neg (by simp only [ne_eq, h2, not_true_eq_false, not_false_eq_true]),
      if_neg (by simp [h3])]

theorem getLast?_cons_lastOf : ∀ (l : List Block) (g : Block),
    (g :: l).getLast? = some (lastOf g l) := by
  intro l
  induction l with
  | nil => intro g; rfl
  | cons b rest ih =>
    intro g
    rw [List.getLast?_cons_cons, ih b]
    rfl

theorem validFrom_append {ys : List Block} : ∀ (xs : List Block) (prev : Block),
    validFrom H d prev (xs ++ ys) =
      (validFrom H d prev xs && validFrom H d (lastOf prev xs) ys) := by
  intro xs
  induction xs with
  | nil => intro prev; simp [validFrom, lastOf]
  | cons x rest ih =>
    intro prev
    rw [List.cons_append, validFrom_cons, ih x, validFrom_cons, Bool.and_assoc]
    rfl

theorem mineLoop_target0 {fuel : Nat} {b : Block} :
    mineLoop H (targetOf 0) fuel b = some b := by
  have h : strStartsWith b.hash (targetOf 0) = true := by
    simp [strStartsWith, targetOf, List.isPrefixOf]
  cases fuel <;> simp [mineLoop, h]

theorem mineStep_hash (b : Block) :
    (mineStep H b).hash = Block.calculate_hash H (mineStep H b) := rfl

theorem mineLoop_spec {target : String} : ∀ (fuel : Nat) (b b' : Block),
    b.hash = Block.calculate_hash H b →
    mineLoop H target fuel b = some b' →
    (b'.index = b.index ∧ b'.timestamp = b.timestamp ∧ b'.data = b.data ∧
     b'.previous_hash = b.previous_hash ∧ b'.hash_algorithm = b.hash_algorithm) ∧
    b'.hash = Block.calculate_hash H b' ∧
    b.nonce ≤ b'.nonce ∧
    strStartsWith b'.hash target = true ∧
    (∀ m : Int, b.nonce ≤ m → m < b'.nonce →
      strStartsWith (calculateHashFields H b.hash_algorithm b.index b.timestamp
        b.data b.previous_hash m) target = false) := by
  intro fuel
  induction fuel with
  | zero =>
    intro b b' hcalc hrun
    unfold mineLoop at hrun
    by_cases h : strStartsWith b.hash target = true
    · simp [h] at hrun
      subst hrun
      refine ⟨⟨rfl, rfl, rfl, rfl, rfl⟩, hcalc, le_refl _, h, ?_⟩
      intro m hm1 hm2
      omega
    · simp [h] at hrun
  | succ f ih =>
    intro b b' hcalc hrun
    unfold mineLoop at hrun
    by_cases h : strStartsWith b.hash target = true
    · simp [h] at hrun
      subst hrun
      refine ⟨⟨rfl, rfl, rfl, rfl, rfl⟩, hcalc, le_refl _, h, ?_⟩
      intro m hm1 hm2
      omega
    · simp [h] at hrun
      have hstep : (mineStep H b).hash = Block.calculate_hash H (mineStep H b) := rfl
      obtain ⟨⟨hi, ht, hd, hp, ha⟩, hc, hn, hs, hmin⟩ := ih (mineStep H b) b' hstep hrun
      have hfields : (mineStep H b).index = b.index ∧
          (mineStep H b).timestamp = b.timestamp ∧ (mineStep H b).data = b.data ∧
          (mineStep H b).previous_hash = b.previous_hash ∧
          (mineStep H b).hash_algorithm = b.hash_algorithm ∧
          (mineStep H b).nonce = b.nonce + 1 := ⟨rfl, rfl, rfl, rfl, rfl, rfl⟩
      obtain ⟨hi2, ht2, hd2, hp2, ha2, hn2⟩ := hfields
      refine ⟨⟨hi.trans hi2, ht.trans ht2, hd.trans hd2, hp.trans hp2,
        ha.trans ha2⟩, hc, ?_, hs, ?_⟩
      · rw [hn2] at hn; omega
      · intro m hm1 hm2
        rcases eq_or_lt_of_le hm1 with heq | hlt
        · subst heq
          have : Block.calculate_hash H b =
              calculateHashFields H b.hash_algorithm b.index b.timestamp b.data
                b.previous_hash b.nonce := rfl
          rw [← this, ← hcalc]
          simp only [Bool.not_eq_true] at h
          exact h
        · have hm1' : (mineStep H b).nonce ≤ m := by rw [hn2]; omega
          have := hmin m hm1' hm2
          rw [hi2, ht2, hd2, hp2, ha2] at this
          exact this

theorem mineLoop_mono {target : String} : ∀ (fuel : Nat) (b b' : Block),
    mineLoop H target fuel b = some b' →
    ∀ k, mineLoop H target (fuel + k) b = some b' := by
  intro fuel
  induction fuel with
  | zero =>
    intro b b' hrun k
    unfold mineLoop at hrun
    by_cases h : strStartsWith b.hash target = true
    · simp [h] at hrun
      subst hrun
      cases k <;> simp [mineLoop, h]
    · simp [h] at hrun
  | succ f ih =>
    intro b b' hrun k
    unfold mineLoop at hrun
    by_cases h : strStartsWith b.hash target = true
    · simp [h] at hrun
      subst hrun
      cases hk : f + 1 + k with
      | zero => omega
      | succ m => simp [mineLoop, h]
    · simp [h] at hrun
      have : f + 1 + k = (f + k) + 1 := by omega
      rw [this]
      unfold mineLoop
      simp [h]
      exact ih (mineStep H b) b' hrun k

theorem mineLoop_det {target : String} {fuel₁ fuel₂ : Nat} {b b₁ b₂ : Block}
    (h₁ : mineLoop H target fuel₁ b = some b₁)
    (h₂ : mineLoop H target fuel₂ b = some b₂) : b₁ = b₂ := by
  rcases Nat.le_total fuel₁ fuel₂ with hle | hle
  · obtain ⟨k, hk⟩ := Nat.le.dest hle
    have := mineLoop_mono fuel₁ b b₁ h₁ k
    rw [hk] at this
    rw [this] at h₂
    exact Option.some.inj h₂
  · obtain ⟨k, hk⟩ := Nat.le.dest hle
    have := mineLoop_mono fuel₂ b b₂ h₂ k
    rw [hk] at this
    rw [this] at h₁
    exact (Option.some.inj h₁).symm

theorem add_block_elim {fuel : Nat} {c c' : Blockchain} {t : Int} {p : Json}
    (h : c.add_block H fuel t p = some c') :
    ∃ prev b', c.chain.getLast? = some prev ∧
      mineLoop H (targetOf c.difficulty) fuel
        (Block.init H (Int.ofNat c.chain.length) t p prev.hash 0
          c.hash_algorithm) = some b' ∧
      c' = { c with chain := c.chain ++ [b'] } := by
  unfold Blockchain.add_block at h
  split at h
  · exact absurd h (by simp)
  · rename_i prev hl
    split at h
    · exact absurd h (by simp)
    · rename_i b' hm
      exact ⟨prev, b', hl, hm, (Option.some.inj h).symm⟩

theorem good_valid {c : Blockchain} (h : GoodChain H c) :
    c.is_chain_valid H = true := by
  obtain ⟨⟨g, rest, hchain, hvalid⟩, _⟩ := h
  unfold Blockchain.is_chain_valid
  rw [hchain]
  exact hvalid

theorem reachable_good {c : Blockchain} (h : Reachable H c) : GoodChain H c := by
  induction h with
  | init dd alg t =>
    refine ⟨⟨create_genesis_block H alg t, [], rfl, rfl⟩, ?_⟩
    intro b hb
    simp only [Blockchain.init, List.mem_singleton] at hb
    subst hb
    rfl
  | add c fuel t p c' hr hadd ih =>
    obtain ⟨⟨g, rest, hchain, hvalid⟩, hall⟩ := ih
    obtain ⟨prev, b', hlast, hmine, hc'⟩ := add_block_elim hadd
    have hprev : prev = lastOf g rest := by
      rw [hchain, getLast?_cons_lastOf] at hlast
      exact (Option.some.inj hlast).symm
    obtain ⟨⟨hi, ht, hd2, hp, ha⟩, hcalc', hn, hs, hmin⟩ :=
      mineLoop_spec fuel _ b' rfl hmine
    subst hc'
    constructor
    · refine ⟨g, rest ++ [b'], by simp [hchain], ?_⟩
      show validFrom H c.difficulty g (rest ++ [b']) = true
      rw [validFrom_append, hvalid, Bool.true_and, validFrom_cons]
      have hcp : checkPair H c.difficulty (lastOf g rest) b' = true := by
        rw [checkPair_iff]
        refine ⟨hcalc', ?_, hs⟩
        rw [hp, ← hprev]
        rfl
      rw [hcp]
      rfl
    · intro b hb
      simp only [List.mem_append, List.mem_singleton] at hb
      rcases hb with hb | hb
      · exact hall b hb
      · subst hb
        exact hcalc'

theorem diagFrom_none_iff : ∀ (l : List Block) (i : Nat) (prev : Block),
    diagFrom H d i prev l = none ↔ validFrom H d prev l = true := by
  intro l
  induction l with
  | nil => intro i prev; simp [diagFrom, validFrom]
  | cons cur rest ih =>
    intro i prev
    cases hdp : diagPair H d prev cur with
    | none =>
      rw [diagFrom_cons_pass hdp, validFrom_cons, diagPair_none_iff.mp hdp]
      simp only [Bool.true_and]
      exact ih (i + 1) cur
    | some f =>
      rw [diagFrom_cons_fail hdp, validFrom_cons]
      have hcp : checkPair H d prev cur = false := by
        cases hcp : checkPair H d prev cur
        · rfl
        · rw [← diagPair_none_iff] at hcp
          rw [hcp] at hdp
          exact absurd hdp (by simp)
      rw [hcp]
      simp

theorem is_chain_valid_iff_diag {c : Blockchain} :
    c.is_chain_valid H = true ↔ c.validateDiag H = none := by
  unfold Blockchain.is_chain_valid Blockchain.validateDiag
  cases hchain : c.chain with
  | nil => simp
  | cons g rest => exact (diagFrom_none_iff rest 1 g).symm

theorem getElem?_split {α : Type} : ∀ (l : List α) (i : Nat) (b : α),
    l[i]? = some b → l = l.take i ++ b :: l.drop (i + 1) := by
  intro l
  induction l with
  | nil => intro i b h; simp at h
  | cons x rest ih =>
    intro i b h
    cases i with
    | zero =>
      simp only [List.getElem?_cons_zero, Option.some.injEq] at h
      subst h
      simp
    | succ j =>
      simp only [List.getElem?_cons_succ] at h
      have := ih j b h
      simp only [List.take_succ_cons, List.drop_succ_cons, List.cons_append]
      rw [← this]

theorem setDataAt_append (d' : Json) : ∀ (xs : List Block) (b : Block) (ys : List Block),
    setDataAt (xs ++ b :: ys) xs.length d' = xs ++ { b with data := d' } :: ys := by
  intro xs
  induction xs with
  | nil => intro b ys; rfl
  | cons x rest ih =>
    intro b ys
    simp only [List.cons_append, List.length_cons, setDataAt]
    exact congrArg (List.cons x) (ih b ys)

theorem setHashAt_append (h' : String) : ∀ (xs : List Block) (b : Block) (ys : List Block),
    setHashAt (xs ++ b :: ys) xs.length h' = xs ++ { b with hash := h' } :: ys := by
  intro xs
  induction xs with
  | nil => intro b ys; rfl
  | cons x rest ih =>
    intro b ys
    simp only [List.cons_append, List.length_cons, setHashAt]
    exact congrArg (List.cons x) (ih b ys)

theorem diagFrom_firstFail {f : FailKind} : ∀ (r₁ : List Block) (i : Nat)
    (prev b : Block) (r₂ : List Block),
    validFrom H d prev r₁ = true →
    diagPair H d (lastOf prev r₁) b = some f →
    diagFrom H d i prev (r₁ ++ b :: r₂) = some (i + r₁.length, f) := by
  intro r₁
  induction r₁ with
  | nil =>
    intro i prev b r₂ _ hdp
    simp only [List.nil_append, List.length_nil, Nat.add_zero]
    exact diagFrom_cons_fail hdp
  | cons x rest ih =>
    intro i prev b r₂ hvalid hdp
    rw [validFrom_cons, Bool.and_eq_true] at hvalid
    obtain ⟨hcp, hvalid'⟩ := hvalid
    rw [List.cons_append, diagFrom_cons_pass (diagPair_none_iff.mpr hcp),
        ih (i + 1) x b r₂ hvalid' hdp]
    have harith : i + 1 + rest.length = i + (x :: rest).length := by
      simp only [List.length_cons]
      omega
    rw [harith]

theorem diagFrom_some {f : FailKind} : ∀ (l : List Block) (i : Nat)
    (prev : Block) (m : Nat),
    diagFrom H d i prev l = some (m, f) →
    ∃ j pr cur, i + j = m ∧ (prev :: l)[j]? = some pr ∧ l[j]? = some cur ∧
      diagPair H d pr cur = some f ∧
      ∀ j' pr' cur', j' < j → (prev :: l)[j']? = some pr' →
        l[j']? = some cur' → checkPair H d pr' cur' = true := by
  intro l
  induction l with
  | nil => intro i prev m h; simp [diagFrom] at h
  | cons cur rest ih =>
    intro i prev m h
    cases hdp : diagPair H d prev cur with
    | some f' =>
      rw [diagFrom_cons_fail hdp] at h
      have h' := Option.some.inj h
      have him : i = m := congrArg Prod.fst h'
      have hff : f' = f := congrArg Prod.snd h'
      subst hff
      refine ⟨0, prev, cur, by omega, by simp, by simp, hdp, ?_⟩
      intro j' pr' cur'' hj' _ _
      omega
    | none =>
      rw [diagFrom_cons_pass hdp] at h
      obtain ⟨j, pr, cur', hij, hpr, hcur, hdp', hmin⟩ := ih (i + 1) cur m h
      refine ⟨j + 1, pr, cur', by omega, by simpa using hpr, by simpa using hcur,
        hdp', ?_⟩
      intro j' pr' cur'' hj' hpr' hcur''
      cases j' with
      | zero =>
        simp only [List.getElem?_cons_zero, Option.some.injEq] at hpr' hcur''
        subst hpr'
        subst hcur''
        exact diagPair_none_iff.mp hdp
      | succ j'' =>
        exact hmin j'' pr' cur'' (by omega) (by simpa using hpr')
          (by simpa using hcur'')

theorem validFrom_iff_forall : ∀ (l : List Block) (prev : Block),
    validFrom H d prev l = true ↔
      ∀ (j : Nat) (pr cur : Block), (prev :: l)[j]? = some pr →
        l[j]? = some cur → checkPair H d pr cur = true := by
  intro l
  induction l with
  | nil =>
    intro prev
    constructor
    · intro _ j pr cur _ hcur
      simp at hcur
    · intro _
      rfl
  | cons cur rest ih =>
    intro prev
    rw [validFrom_cons, Bool.and_eq_true, ih cur]
    constructor
    · rintro ⟨hcp, hrest⟩ j pr cur' hpr hcur'
      cases j with
      | zero =>
        simp only [List.getElem?_cons_zero, Option.some.injEq] at hpr hcur'
        subst hpr
        subst hcur'
        exact hcp
      | succ j' =>
        exact hrest j' pr cur' (by simpa using hpr) (by simpa using hcur')
    · intro hall
      refine ⟨hall 0 prev cur (by simp) (by simp), ?_⟩
      intro j pr cur' hpr hcur'
      exact hall (j + 1) pr cur' (by simpa using hpr) (by simpa using hcur')

theorem charListLe_total : ∀ (a b : List Char),
    charListLe a b = true ∨ charListLe b a = true := by
  intro a
  induction a with
  | nil => intro b; left; rfl
  | cons x as ih =>
    intro b
    cases b with
    | nil => right; rfl
    | cons y bs =>
      unfold charListLe
      rcases Nat.lt_trichotomy x.toNat y.toNat with h | h | h
      · left
        rw [if_pos h]
      · have hxy : ¬ x.toNat < y.toNat := by omega
        have hyx : ¬ y.toNat < x.toNat := by omega
        simp only [if_neg hxy, if_neg hyx]
        exact ih bs
      · right
        rw [if_pos h]

theorem charListLe_trans : ∀ (a b c : List Char), charListLe a b = true →
    charListLe b c = true → charListLe a c = true := by
  intro a
  induction a with
  | nil => intro b c _ _; rfl
  | cons x as ih =>
    intro b c hab hbc
    cases b with
    | nil => exact absurd hab (by simp [charListLe])
    | cons y bs =>
      cases c with
      | nil => exact absurd hbc (by simp [charListLe])
      | cons z cs =>
        unfold charListLe at hab hbc ⊢
        rcases Nat.lt_trichotomy x.toNat y.toNat with h1 | h1 | h1
        · rcases Nat.lt_trichotomy y.toNat z.toNat with h2 | h2 | h2
          · rw [if_pos (by omega)]
          · rw [if_pos (by omega)]
          · simp only [if_neg (by omega : ¬ y.toNat < z.toNat), if_pos h2] at hbc
            exact absurd hbc (by simp)
        · rcases Nat.lt_trichotomy y.toNat z.toNat with h2 | h2 | h2
          · rw [if_pos (by omega)]
          · have hxz : ¬ x.toNat < z.toNat := by omega
            have hzx : ¬ z.toNat < x.toNat := by omega
            simp only [if_neg hxz, if_neg hzx]
            simp only [if_neg (by omega : ¬ x.toNat < y.toNat),
              if_neg (by omega : ¬ y.toNat < x.toNat)] at hab
            simp only [if_neg (by omega : ¬ y.toNat < z.toNat),
              if_neg (by omega : ¬ z.toNat < y.toNat)] at hbc
            exact ih bs cs hab hbc
          · simp only [if_neg (by omega : ¬ y.toNat < z.toNat), if_pos h2] at hbc
            exact absurd hbc (by simp)
        · simp only [if_neg (by omega : ¬ x.toNat < y.toNat), if_pos h1] at hab
          exact absurd hab (by simp)

theorem charListLe_antisymm : ∀ (a b : List Char), charListLe a b = true →
    charListLe b a = true → a = b := by
  intro a
  induction a with
  | nil =>
    intro b _ hba
    cases b with
    | nil => rfl
    | cons y bs => exact absurd hba (by simp [charListLe])
  | cons x as ih =>
    intro b hab hba
    cases b with
    | nil => exact absurd hab (by simp [charListLe])
    | cons y bs =>
      unfold charListLe at hab hba
      rcases Nat.lt_trichotomy x.toNat y.toNat with h | h | h
      · simp only [if_neg (by omega : ¬ y.toNat < x.toNat), if_pos h] at hba
        exact absurd hba (by simp)
      · have hx : x = y := Char.ext (UInt32.toNat.inj h)
        simp only [if_neg (by omega : ¬ x.toNat < y.toNat),
          if_neg (by omega : ¬ y.toNat < x.toNat)] at hab hba
        rw [hx, ih bs hab hba]
      · simp only [if_neg (by omega : ¬ x.toNat < y.toNat), if_pos h] at hab
        exact absurd hab (by simp)

theorem strLe_total (a b : String) : strLe a b = true ∨ strLe b a = true :=
  charListLe_total a.toList b.toList

theorem strLe_trans {a b c : String} (h1 : strLe a b = true)
    (h2 : strLe b c = true) : strLe a c = true :=
  charListLe_trans a.toList b.toList c.toList h1 h2

theorem strLe_antisymm {a b : String} (h1 : strLe a b = true)
    (h2 : strLe b a = true) : a = b :=
  String.toList_inj.mp (charListLe_antisymm a.toList b.toList h1 h2)

theorem insertPair_perm : ∀ (l : List (String × Json)) (p : String × Json),
    (insertPair p l).Perm (p :: l) := by
  intro l
  induction l with
  | nil => intro p; exact List.Perm.refl _
  | cons q rest ih =>
    intro p
    unfold insertPair
    by_cases h : strLe p.1 q.1 = true
    · rw [if_pos h]
    · rw [if_neg h]
      exact ((ih p).cons q).trans (List.Perm.swap p q rest)

theorem sortPairs_perm : ∀ (l : List (String × Json)), (sortPairs l).Perm l := by
  intro l
  induction l with
  | nil => exact List.Perm.refl _
  | cons p rest ih =>
    exact (insertPair_perm (sortPairs rest) p).trans (ih.cons p)

theorem insertPair_sorted : ∀ (l : List (String × Json)) (p : String × Json),
    List.Sorted (fun a b => strLe a.1 b.1 = true) l →
    List.Sorted (fun a b => strLe a.1 b.1 = true) (insertPair p l) := by
  intro l
  induction l with
  | nil => intro p _; simp [insertPair]
  | cons q rest ih =>
    intro p hs
    rw [List.sorted_cons] at hs
    obtain ⟨hq, hrest⟩ := hs
    unfold insertPair
    by_cases h : strLe p.1 q.1 = true
    · rw [if_pos h, List.sorted_cons]
      refine ⟨?_, ?_⟩
      · intro b hb
        rcases List.mem_cons.mp hb with rfl | hb'
        · exact h
        · exact strLe_trans h (hq b hb')
      · rw [List.sorted_cons]
        exact ⟨hq, hrest⟩
    · rw [if_neg h, List.sorted_cons]
      refine ⟨?_, ih p hrest⟩
      intro b hb
      have hmem := (insertPair_perm rest p).mem_iff.mp hb
      rcases List.mem_cons.mp hmem with rfl | hb'
      · rcases strLe_total b.1 q.1 with ht | ht
        · exact absurd ht h
        · exact ht
      · exact hq b hb'

theorem sortPairs_sorted : ∀ (l : List (String × Json)),
    List.Sorted (fun a b => strLe a.1 b.1 = true) (sortPairs l) := by
  intro l
  induction l with
  | nil => simp [sortPairs]
  | cons p rest ih => exact insertPair_sorted (sortPairs rest) p ih

theorem pairwise_and_of {α : Type} {R S : α → α → Prop} : ∀ {l : List α},
    List.Pairwise R l → List.Pairwise S l →
    List.Pairwise (fun a b => R a b ∧ S a b) l := by
  intro l hR
  induction hR with
  | nil => intro _; exact List.Pairwise.nil
  | cons hhead _ ih =>
    intro hS
    cases hS with
    | cons hhead' htail' =>
      exact List.Pairwise.cons (fun b hb => ⟨hhead b hb, hhead' b hb⟩) (ih htail')

theorem sorted_keyStrict_of_sorted_nodup : ∀ (l : List (String × Json)),
    List.Sorted (fun a b => strLe a.1 b.1 = true) l → (l.map Prod.fst).Nodup →
    List.Sorted (fun a b => strLe a.1 b.1 = true ∧ a.1 ≠ b.1) l := by
  intro l hs hnd
  have hnd' : List.Pairwise (fun a b => a ≠ b) (l.map Prod.fst) := hnd
  have hne : List.Pairwise (fun a b => a.1 ≠ b.1) l := List.pairwise_map.mp hnd'
  exact pairwise_and_of hs hne

theorem sortPairs_eq_of_perm {l₁ l₂ : List (String × Json)}
    (hnd : (l₁.map Prod.fst).Nodup) (hperm : l₁.Perm l₂) :
    sortPairs l₁ = sortPairs l₂ := by
  have hp : (sortPairs l₁).Perm (sortPairs l₂) :=
    ((sortPairs_perm l₁).trans hperm).trans (sortPairs_perm l₂).symm
  have hnd1 : ((sortPairs l₁).map Prod.fst).Nodup :=
    (((sortPairs_perm l₁).map Prod.fst).nodup_iff).mpr hnd
  have hnd2 : ((sortPairs l₂).map Prod.fst).Nodup :=
    (((sortPairs_perm l₂).map Prod.fst).nodup_iff).mpr
      (((hperm.map Prod.fst).nodup_iff).mp hnd)
  haveI : IsAntisymm (String × Json) (fun a b => strLe a.1 b.1 = true ∧ a.1 ≠ b.1) :=
    ⟨fun a b h1 h2 => absurd (strLe_antisymm h1.1 h2.1) h1.2⟩
  exact List.eq_of_perm_of_sorted hp
    (sorted_keyStrict_of_sorted_nodup _ (sortPairs_sorted l₁) hnd1)
    (sorted_keyStrict_of_sorted_nodup _ (sortPairs_sorted l₂) hnd2)

theorem canonPairs_eq_map : ∀ (l : List (String × Json)),
    canonPairs l = l.map (fun p => (p.1, canon p.2)) := by
  intro l
  induction l with
  | nil => rfl
  | cons p rest ih =>
    obtain ⟨k, v⟩ := p
    simp only [canonPairs, List.map_cons, ih]

theorem canonPairs_keys (l : List (String × Json)) :
    (canonPairs l).map Prod.fst = l.map Prod.fst := by
  rw [canonPairs_eq_map, List.map_map]
  rfl

theorem keys_of_keyPermPairs : ∀ (l₁ l₂ : List (String × Json)),
    KeyPermPairs l₁ l₂ → l₁.map Prod.fst = l₂.map Prod.fst := by
  intro l₁
  induction l₁ with
  | nil => intro l₂ h; cases h; rfl
  | cons p rest ih =>
    intro l₂ h
    cases h with
    | cons k v w xs ys hvw hrest =>
      simp only [List.map_cons]
      rw [ih ys hrest]

theorem Json.sizeOf_pos : ∀ (a : Json), 0 < sizeOf a := by
  intro a
  cases a <;> simp

theorem canonListAux {n : Nat}
    (IH : ∀ a b, sizeOf a ≤ n → KeyPermEquiv a b → canon a = canon b) :
    ∀ xs ys, KeyPermList xs ys → (∀ x ∈ xs, sizeOf x ≤ n) →
    canonList xs = canonList ys := by
  intro xs
  induction xs with
  | nil => intro ys h _; cases h; rfl
  | cons x rest ih =>
    intro ys h hsz
    cases h with
    | cons _ y _ ys' hxy hrest =>
      simp only [canonList]
      rw [IH x y (hsz x (by simp)) hxy,
          ih ys' hrest fun z hz => hsz z (by simp [hz])]

theorem canonPairsAux {n : Nat}
    (IH : ∀ a b, sizeOf a ≤ n → KeyPermEquiv a b → canon a = canon b) :
    ∀ xs ys, KeyPermPairs xs ys → (∀ p ∈ xs, sizeOf p.2 ≤ n) →
    canonPairs xs = canonPairs ys := by
  intro xs
  induction xs with
  | nil => intro ys h _; cases h; rfl
  | cons p rest ih =>
    intro ys h hsz
    cases h with
    | cons k v w xs' ys' hvw hrest =>
      simp only [canonPairs]
      rw [IH v w (hsz (k, v) (by simp)) hvw,
          ih ys' hrest fun q hq => hsz q (by simp [hq])]

theorem canonAux : ∀ (n : Nat) (a b : Json), sizeOf a ≤ n →
    KeyPermEquiv a b → canon a = canon b := by
  intro n
  induction n with
  | zero =>
    intro a b hsz _
    have := Json.sizeOf_pos a
    omega
  | succ n ih =>
    intro a b hsz h
    cases h with
    | null => rfl
    | bool => rfl
    | num => rfl
    | str => rfl
    | arr xs ys hl =>
      simp only [canon]
      rw [canonListAux ih xs ys hl ?_]
      intro x hx
      have h1 : sizeOf x < sizeOf xs := List.sizeOf_lt_of_mem hx
      have h2 : sizeOf (Json.arr xs) = 1 + sizeOf xs := by simp
      omega
    | obj l₁ l₂ l₃ hnd hpw hperm =>
      simp only [canon]
      have hpairs : canonPairs l₁ = canonPairs l₃ := by
        apply canonPairsAux ih l₁ l₃ hpw
        intro p hp
        obtain ⟨k, v⟩ := p
        have h1 : sizeOf (k, v) < sizeOf l₁ := List.sizeOf_lt_of_mem hp
        have h2 : sizeOf (Json.obj l₁) = 1 + sizeOf l₁ := by simp
        have h3 : sizeOf (k, v) = 1 + sizeOf k + sizeOf v := by simp
        simp only []
        omega
      have hkeys13 : l₁.map Prod.fst = l₃.map Prod.fst :=
        keys_of_keyPermPairs l₁ l₃ hpw
      have hnd3 : ((canonPairs l₃).map Prod.fst).Nodup := by
        rw [canonPairs_keys, ← hkeys13]
        exact hnd
      have hperm' : (canonPairs l₃).Perm (canonPairs l₂) := by
        rw [canonPairs_eq_map, canonPairs_eq_map]
        exact hperm.map _
      rw [hpairs, sortPairs_eq_of_perm hnd3 hperm']

theorem canon_keyPermEquiv {a b : Json} (h : KeyPermEquiv a b) :
    canon a = canon b :=
  canonAux (sizeOf a) a b le_rfl h

theorem getElem?_some_lt {α : Type} {l : List α} {j : Nat} {b : α}
    (h : l[j]? = some b) : j < l.length := by
  by_contra hle
  rw [List.getElem?_eq_none (by omega)] at h
  exact absurd h (by simp)

theorem is_chain_valid_short {c : Blockchain} (h : c.chain.length ≤ 1) :
    c.is_chain_valid H = true := by
  unfold Blockchain.is_chain_valid
  rcases hchain : c.chain with _ | ⟨g, rest⟩
  · rfl
  · rcases rest with _ | ⟨b, r⟩
    · rfl
    · rw [hchain] at h
      simp at h

theorem is_chain_valid_iff_checksPass (H : String → String → String)
    (c : Blockchain) :
    c.is_chain_valid H = true ↔
      ∀ i : Nat, 1 ≤ i → i < c.chain.length → checksPass H c i := by
  rcases hchain : c.chain with _ | ⟨g, rest⟩
  · constructor
    · intro _ i _ h2
      simp at h2
    · intro _
      unfold Blockchain.is_chain_valid
      rw [hchain]
  · have hvalid_eq : c.is_chain_valid H = validFrom H c.difficulty g rest := by
      unfold Blockchain.is_chain_valid
      rw [hchain]
    rw [hvalid_eq, validFrom_iff_forall rest g]
    constructor
    · intro hall i h1 h2 prev cur hprev hcur
      obtain ⟨j, rfl⟩ : ∃ j, i = j + 1 := ⟨i - 1, by omega⟩
      rw [hchain] at hprev hcur
      simp only [Nat.add_sub_cancel] at hprev
      simp only [List.getElem?_cons_succ] at hcur
      exact checkPair_iff.mp (hall j prev cur hprev hcur)
    · intro hcp j pr cur hpr hcur
      have hlt : j < rest.length := getElem?_some_lt hcur
      apply checkPair_iff.mpr
      apply hcp (j + 1) (by omega) (by simp only [List.length_cons]; omega)
      · rw [hchain]
        simpa using hpr
      · rw [hchain]
        simpa using hcur

theorem validateDiag_some_elim {c : Blockchain} {i : Nat} {k : FailKind}
    (h : c.validateDiag H = some (i, k)) :
    c.is_chain_valid H = false ∧ 1 ≤ i ∧ i < c.chain.length ∧
    (∀ j : Nat, 1 ≤ j → j < i → checksPass H c j) ∧
    (∀ prev cur, c.chain[i - 1]? = some prev → c.chain[i]? = some cur →
      diagPair H c.difficulty prev cur = some k ∧
      checkPair H c.difficulty prev cur = false) := by
  rcases hchain : c.chain with _ | ⟨g, rest⟩
  · unfold Blockchain.validateDiag at h
    rw [hchain] at h
    exact absurd h (by simp)
  · have hd : diagFrom H c.difficulty 1 g rest = some (i, k) := by
      unfold Blockchain.validateDiag at h
      rw [hchain] at h
      exact h
    obtain ⟨j, pr, cur, hij, hpr, hcur, hdp, hmin⟩ := diagFrom_some rest 1 g i hd
    have hi : i = j + 1 := by omega
    subst hi
    have hjlt : j < rest.length := getElem?_some_lt hcur
    refine ⟨?_, by omega, ?_, ?_, ?_⟩
    · cases hv : c.is_chain_valid H
      · rfl
      · exfalso
        have hnone := is_chain_valid_iff_diag.mp hv
        rw [hnone] at h
        exact absurd h (by simp)
    · simp only [List.length_cons]
      omega
    · intro j' h1 h2 prev cur' hprev hcur'
      obtain ⟨j'', rfl⟩ : ∃ j'', j' = j'' + 1 := ⟨j' - 1, by omega⟩
      rw [hchain] at hprev hcur'
      simp only [Nat.add_sub_cancel] at hprev
      simp only [List.getElem?_cons_succ] at hcur'
      exact checkPair_iff.mp (hmin j'' prev cur' (by omega) hprev hcur')
    · intro prev cur' hprev hcur'
      simp only [Nat.add_sub_cancel] at hprev
      simp only [List.getElem?_cons_succ] at hcur'
      rw [hpr] at hprev
      rw [hcur] at hcur'
      have hprev' : pr = prev := Option.some.inj hprev
      have hcur'' : cur = cur' := Option.some.inj hcur'
      subst hprev'
      subst hcur''
      refine ⟨hdp, ?_⟩
      cases hcp : checkPair H c.difficulty pr cur
      · rfl
      · rw [← diagPair_none_iff] at hcp
        rw [hcp] at hdp
        exact absurd hdp (by simp)

end Lemmas

/-- C1: Validation soundness — every chain constructed by
`Blockchain.__init__` followed by any finite sequence of successful
`add_block` calls (and no other mutation) satisfies `is_chain_valid`. -/
theorem c1_validation_soundness {H : String → String → String}
    {c : Blockchain} (hr : Reachable H c) : c.is_chain_valid H = true :=
  good_valid (reachable_good hr)

set_option maxRecDepth 40000 in
/-- C1 witness: a concrete two-block chain built through `add_block`
validates. -/
theorem c1_witness : Reachable H1 chainB ∧ chainB.is_chain_valid H1 = true := by
  have hr : Reachable H1 chainB :=
    Reachable.add chainA 1 5 (Json.str "B1") chainB
      (@Reachable.init H1 0 "sha256" 0) (by rfl)
  exact ⟨hr, c1_validation_soundness hr⟩

/-- C3 counterexample: the code does not fail on an unsupported tag — for the
tag "md5" it silently produces the sha256 digest (the fallback branch), and
chain construction under the tag "md5" succeeds, refuting "fails with
UnsupportedAlgorithm; no silent fallback". -/
theorem c3_counterexample :
    calculateHashFields H1 "md5" 0 0 (Json.str "x") "0" 0 =
      calculateHashFields H1 "sha256" 0 0 (Json.str "x") "0" 0 ∧
    calculateHashFields H1 "md5" 0 0 (Json.str "x") "0" 0 =
      H1 "sha256" (blockString 0 0 (Json.str "x") "0" 0) ∧
    (Blockchain.init H1 2 "md5" 0).chain.length = 1 :=
  ⟨rfl, rfl, rfl⟩

/-- C3 amended: for every algorithm tag outside the fixed five,
`calculate_hash` silently falls back to sha256 (returns the sha256 digest of
the block string), and construction under such a tag still succeeds with a
genesis block; no error is raised. -/
theorem c3_fallback_on_unknown_tag {H : String → String → String}
    {alg : String}
    (h : alg ∉ (["sha256", "sha512", "sha3-256", "sha3-512", "blake2b"] :
      List String)) :
    (∀ (index timestamp : Int) (data : Json) (previous_hash : String)
      (nonce : Int),
      calculateHashFields H alg index timestamp data previous_hash nonce =
        H "sha256" (blockString index timestamp data previous_hash nonce)) ∧
    ∀ (d t : Int), (Blockchain.init H d alg t).chain.length = 1 := by
  simp only [List.mem_cons, List.not_mem_nil, or_false, not_or] at h
  obtain ⟨h1, h2, h3, h4, h5⟩ := h
  constructor
  · intro index timestamp data previous_hash nonce
    unfold calculateHashFields hashDispatch
    rw [if_neg h1, if_neg h2, if_neg h3, if_neg h4, if_neg h5]
  · intro d t
    rfl

/-- C3 witness: the fallback theorem applied at the concrete tag "md5". -/
theorem c3_witness :
    ("md5" ∉ (["sha256", "sha512", "sha3-256", "sha3-512", "blake2b"] :
      List String)) ∧
    calculateHashFields H1 "md5" 1 2 Json.null "p" 3 =
      H1 "sha256" (blockString 1 2 Json.null "p" 3) := by
  have hm : "md5" ∉ (["sha256", "sha512", "sha3-256", "sha3-512", "blake2b"] :
      List String) := by decide
  exact ⟨hm, (c3_fallback_on_unknown_tag hm).1 1 2 Json.null "p" 3⟩

/-- C4: Append postconditions — a successful `add_block` grows the chain by
exactly one block; the new block links to the previously latest block's
hash, meets the difficulty target, and stores exactly its recomputed
digest. -/
theorem c4_append_postconditions {H : String → String → String} {fuel : Nat}
    {c c' : Blockchain} {t : Int} {p : Json} {prev : Block}
    (hlast : c.chain.getLast? = some prev)
    (h : c.add_block H fuel t p = some c') :
    c'.chain.length = c.chain.length + 1 ∧
    ∃ b', c'.chain.getLast? = some b' ∧
      b'.previous_hash = prev.hash ∧
      strStartsWith b'.hash (targetOf c.difficulty) = true ∧
      b'.hash = Block.calculate_hash H b' := by
  obtain ⟨prev', b', hlast', hmine, hc'⟩ := add_block_elim h
  rw [hlast] at hlast'
  have hprev : prev' = prev := (Option.some.inj hlast').symm
  subst hprev
  obtain ⟨⟨hi, ht, hd2, hp, ha⟩, hcalc', hn, hs, hmin⟩ :=
    mineLoop_spec fuel _ b' rfl hmine
  subst hc'
  refine ⟨by simp, b', ?_, ?_, hs, hcalc'⟩
  · simp [List.getLast?_concat]
  · rw [hp]
    rfl

set_option maxRecDepth 40000 in
/-- C4 witness: the postconditions checked on a concrete `add_block` call. -/
theorem c4_witness :
    chainB.chain.length = chainA.chain.length + 1 ∧
    blockB.previous_hash = (create_genesis_block H1 "sha256" 0).hash ∧
    strStartsWith blockB.hash (targetOf chainA.difficulty) = true ∧
    blockB.hash = Block.calculate_hash H1 blockB := by
  obtain ⟨hlen, b', hlast, hph, hsw, hcalc⟩ :=
    @c4_append_postconditions H1 1 chainA chainB 5 (Json.str "B1")
      (create_genesis_block H1 "sha256" 0) (by rfl) (by rfl)
  have hbb : blockB = b' := by
    have hgl : chainB.chain.getLast? = some blockB := by rfl
    rw [hgl] at hlast
    exact Option.some.inj hlast
  rw [hbb]
  exact ⟨hlen, hph, hsw, hcalc⟩

/-- C5: the validation algorithm — chains with at most the genesis block
always validate (genesis is never checked); validation returns true exactly
when every block from index 1 on passes the three checks (hash
recomputation, predecessor link, difficulty prefix); the diagnostic is
`none` exactly on valid chains; and when it reports `(i, k)`, validation is
false, `i` is the first failing block (all earlier blocks pass all three
checks) and `k` is the first failing check at block `i` in the source's
check order. -/
theorem c5_validation_algorithm (H : String → String → String)
    (c : Blockchain) :
    (c.chain.length ≤ 1 → c.is_chain_valid H = true) ∧
    (c.is_chain_valid H = true ↔
      ∀ i : Nat, 1 ≤ i → i < c.chain.length → checksPass H c i) ∧
    (c.is_chain_valid H = true ↔ c.validateDiag H = none) ∧
    (∀ (i : Nat) (k : FailKind), c.validateDiag H = some (i, k) →
      c.is_chain_valid H = false ∧ 1 ≤ i ∧ i < c.chain.length ∧
      (∀ j : Nat, 1 ≤ j → j < i → checksPass H c j) ∧
      (∀ prev cur, c.chain[i - 1]? = some prev → c.chain[i]? = some cur →
        diagPair H c.difficulty prev cur = some k ∧
        checkPair H c.difficulty prev cur = false)) :=
  ⟨fun h => is_chain_valid_short h,
   is_chain_valid_iff_checksPass H c,
   is_chain_valid_iff_diag,
   fun _ _ h => validateDiag_some_elim h⟩

/-- C5 witness: the short-chain clause applied to a concrete one-block
chain. -/
theorem c5_witness : chainA.is_chain_valid H1 = true :=
  (c5_validation_algorithm H1 chainA).1 (by decide)

/-- C6: Miner determinism and minimality — for a candidate whose stored hash
is its recomputed digest, a successful `mineLoop` run preserves all fields
except the nonce, returns the least nonce at or above the candidate's
initial nonce whose digest meets the target (nonces are tried in increasing
order), the result does not depend on the fuel bound (so it is a function
of index, timestamp, payload, previous hash, algorithm and difficulty);
with difficulty 0 the target is empty and the loop body never runs, so the
block is returned unchanged with its nonce still 0. -/
theorem c6_miner_determinism_minimality :
    (∀ (H : String → String → String) (target : String) (fuel : Nat)
      (b b' : Block),
      b.hash = Block.calculate_hash H b →
      mineLoop H target fuel b = some b' →
      (b'.index = b.index ∧ b'.timestamp = b.timestamp ∧ b'.data = b.data ∧
       b'.previous_hash = b.previous_hash ∧
       b'.hash_algorithm = b.hash_algorithm) ∧
      b.nonce ≤ b'.nonce ∧
      b'.hash = calculateHashFields H b.hash_algorithm b.index b.timestamp
        b.data b.previous_hash b'.nonce ∧
      strStartsWith b'.hash target = true ∧
      (∀ m : Int, b.nonce ≤ m → m < b'.nonce →
        strStartsWith (calculateHashFields H b.hash_algorithm b.index
          b.timestamp b.data b.previous_hash m) target = false)) ∧
    (∀ (H : String → String → String) (target : String) (fuel₁ fuel₂ : Nat)
      (b b₁ b₂ : Block),
      mineLoop H target fuel₁ b = some b₁ →
      mineLoop H target fuel₂ b = some b₂ → b₁ = b₂) ∧
    (targetOf 0 = "" ∧
     ∀ (H : String → String → String) (fuel : Nat) (b : Block),
       mineLoop H (targetOf 0) fuel b = some b) := by
  refine ⟨?_, ?_, ?_, ?_⟩
  · intro H target fuel b b' hcalc hrun
    obtain ⟨⟨hi, ht, hd2, hp, ha⟩, hcalc', hn, hs, hmin⟩ :=
      mineLoop_spec fuel b b' hcalc hrun
    refine ⟨⟨hi, ht, hd2, hp, ha⟩, hn, ?_, hs, hmin⟩
    rw [hcalc']
    unfold Block.calculate_hash
    rw [hi, ht, hd2, hp, ha]
  · intro H target f1 f2 b b1 b2 h1 h2
    exact mineLoop_det h1 h2
  · decide
  · intro H fuel b
    exact mineLoop_target0

/-- C6 witness: with difficulty 0 the loop returns the candidate unchanged,
nonce still 0, on a concrete block. -/
theorem c6_witness :
    mineLoop H1 (targetOf 0) 3 (create_genesis_block H1 "sha256" 0) =
      some (create_genesis_block H1 "sha256" 0) ∧
    (create_genesis_block H1 "sha256" 0).nonce = 0 :=
  ⟨c6_miner_determinism_minimality.2.2.2 H1 3
    (create_genesis_block H1 "sha256" 0), rfl⟩

/-- C8 counterexample: construction with difficulty -1 succeeds — the caller
obtains a chain holding a genesis block, refuting "fails with
InvalidConfiguration; no genesis block is produced". -/
theorem c8_counterexample :
    (Blockchain.init H1 (-1) "sha256" 0).chain.length = 1 ∧
    (Blockchain.init H1 (-1) "sha256" 0).difficulty = -1 :=
  ⟨rfl, rfl⟩

/-- C8 amended: the constructor performs no difficulty validation — for
every negative difficulty it succeeds, producing a chain holding exactly
the genesis block; the mining target is then the empty string (as with
difficulty 0), so the chain validates. -/
theorem c8_no_difficulty_validation {H : String → String → String} {d : Int}
    (hneg : d < 0) (alg : String) (t : Int) :
    (Blockchain.init H d alg t).chain = [create_genesis_block H alg t] ∧
    targetOf d = "" ∧
    (Blockchain.init H d alg t).is_chain_valid H = true := by
  refine ⟨rfl, ?_, rfl⟩
  unfold targetOf
  have hz : d.toNat = 0 := by omega
  rw [hz]
  decide

/-- C8 witness: the amended statement at difficulty -1. -/
theorem c8_witness :
    (-1 : Int) < 0 ∧
    (Blockchain.init H1 (-1) "sha256" 5).chain =
      [create_genesis_block H1 "sha256" 5] ∧
    targetOf (-1) = "" ∧
    (Blockchain.init H1 (-1) "sha256" 5).is_chain_valid H1 = true :=
  ⟨by decide, c8_no_difficulty_validation (by decide) "sha256" 5⟩

/-- C9: Canonical equivalence — two payloads that are equal mappings up to
the insertion order of their keys, recursively (`KeyPermEquiv`), hash to
identical digests when index, timestamp, previous hash, nonce and
algorithm coincide. -/
theorem c9_canonical_equivalence {H : String → String → String}
    {alg : String} {index timestamp nonce : Int} {previous_hash : String}
    {d₁ d₂ : Json} (h : KeyPermEquiv d₁ d₂) :
    calculateHashFields H alg index timestamp d₁ previous_hash nonce =
      calculateHashFields H alg index timestamp d₂ previous_hash nonce := by
  have hc : canon d₁ = canon d₂ := canon_keyPermEquiv h
  unfold calculateHashFields
  congr 1
  unfold blockString dumps
  congr 1
  simp only [canon, canonPairs, hc]

set_option maxRecDepth 40000 in
/-- C9 witness: a two-key mapping and its key-swapped variant hash
identically. -/
theorem c9_witness :
    KeyPermEquiv (Json.obj [("b", Json.num 1), ("a", Json.num 2)])
      (Json.obj [("a", Json.num 2), ("b", Json.num 1)]) ∧
    calculateHashFields H1 "sha256" 0 0
        (Json.obj [("b", Json.num 1), ("a", Json.num 2)]) "0" 0 =
      calculateHashFields H1 "sha256" 0 0
        (Json.obj [("a", Json.num 2), ("b", Json.num 1)]) "0" 0 := by
  have he : KeyPermEquiv (Json.obj [("b", Json.num 1), ("a", Json.num 2)])
      (Json.obj [("a", Json.num 2), ("b", Json.num 1)]) := by
    apply KeyPermEquiv.obj _ _ [("b", Json.num 1), ("a", Json.num 2)]
    · decide
    · exact KeyPermPairs.cons "b" (Json.num 1) (Json.num 1) _ _
        (KeyPermEquiv.num 1)
        (KeyPermPairs.cons "a" (Json.num 2) (Json.num 2) _ _
          (KeyPermEquiv.num 2) KeyPermPairs.nil)
    · exact List.Perm.swap ("a", Json.num 2) ("b", Json.num 1) []
  exact ⟨he, c9_canonical_equivalence he⟩

/-- C10: Non-emptiness — every chain obtainable through the core interface
(construction plus successful `add_block` calls, with `is_chain_valid`,
`get_latest_block` and `get_chain_info` being read-only) holds at least one
block, so `get_latest_block` and `get_chain_info` never hit an
empty-sequence access. -/
theorem c10_nonempty {H : String → String → String} {c : Blockchain}
    (hr : Reachable H c) :
    c.chain ≠ [] ∧ 1 ≤ c.chain.length ∧
    (c.get_latest_block).isSome = true ∧ (c.get_chain_info).isSome = true := by
  obtain ⟨⟨g, rest, hchain, _⟩, _⟩ := reachable_good hr
  refine ⟨by rw [hchain]; simp, by rw [hchain]; simp, ?_, ?_⟩
  · unfold Blockchain.get_latest_block
    rw [hchain, getLast?_cons_lastOf]
    rfl
  · unfold Blockchain.get_chain_info
    rw [hchain, getLast?_cons_lastOf]
    rfl

/-- C10 witness: the invariant on a concretely constructed chain. -/
theorem c10_witness :
    chainA.chain ≠ [] ∧ 1 ≤ chainA.chain.length ∧
    (chainA.get_latest_block).isSome = true ∧
    (chainA.get_chain_info).isSome = true :=
  c10_nonempty (@Reachable.init H1 0 "sha256" 0)

/-- C2: Tamper detection — in a chain built purely through `add_block`,
overwriting the payload of any non-genesis block `i` with a value whose
recomputed digest differs from the stored hash (the hash field left
unchanged) makes `is_chain_valid` return false, and the first failing
block reported is block `i` with failure kind hash mismatch (check 1). -/
theorem c2_tamper_detection {H : String → String → String} {c : Blockchain}
    (hr : Reachable H c) {i : Nat} {bi : Block} {d' : Json} (h1 : 1 ≤ i)
    (hbi : c.chain[i]? = some bi)
    (hdiff : calculateHashFields H bi.hash_algorithm bi.index bi.timestamp d'
      bi.previous_hash bi.nonce ≠ bi.hash) :
    (c.tamperData i d').is_chain_valid H = false ∧
    (c.tamperData i d').validateDiag H = some (i, FailKind.hashMismatch) := by
  obtain ⟨⟨g, rest, hchain, hvalid⟩, _⟩ := reachable_good hr
  obtain ⟨j, rfl⟩ : ∃ j, i = j + 1 := ⟨i - 1, by omega⟩
  rw [hchain] at hbi
  simp only [List.getElem?_cons_succ] at hbi
  obtain ⟨r₁, r₂, hsplit, hlen⟩ :
      ∃ r₁ r₂, rest = r₁ ++ bi :: r₂ ∧ r₁.length = j :=
    ⟨rest.take j, rest.drop (j + 1), getElem?_split rest j bi hbi,
     by rw [List.length_take]
        have := getElem?_some_lt hbi
        omega⟩
  have hset : setDataAt rest j d' = r₁ ++ { bi with data := d' } :: r₂ := by
    rw [hsplit, ← hlen]
    exact setDataAt_append d' r₁ bi r₂
  have htchain : (c.tamperData (j + 1) d').chain =
      g :: (r₁ ++ { bi with data := d' } :: r₂) := by
    show setDataAt c.chain (j + 1) d' = _
    rw [hchain]
    show g :: setDataAt rest j d' = _
    rw [hset]
  have hprefix : validFrom H c.difficulty g r₁ = true := by
    have hv : validFrom H c.difficulty g (r₁ ++ bi :: r₂) = true := by
      rw [← hsplit]
      exact hvalid
    rw [validFrom_append, Bool.and_eq_true] at hv
    exact hv.1
  have hfail : diagPair H c.difficulty (lastOf g r₁) { bi with data := d' } =
      some FailKind.hashMismatch := by
    apply diagPair_some_hashMismatch
    show bi.hash ≠ Block.calculate_hash H { bi with data := d' }
    have hcc : Block.calculate_hash H { bi with data := d' } =
        calculateHashFields H bi.hash_algorithm bi.index bi.timestamp d'
          bi.previous_hash bi.nonce := rfl
    rw [hcc]
    exact fun he => hdiff he.symm
  have hdiag : (c.tamperData (j + 1) d').validateDiag H =
      some (j + 1, FailKind.hashMismatch) := by
    have hdd := diagFrom_firstFail r₁ 1 g { bi with data := d' } r₂ hprefix hfail
    have harith : 1 + r₁.length = j + 1 := by omega
    rw [harith] at hdd
    unfold Blockchain.validateDiag
    rw [htchain]
    exact hdd
  refine ⟨?_, hdiag⟩
  cases hv : (c.tamperData (j + 1) d').is_chain_valid H
  · rfl
  · exfalso
    have hnone := is_chain_valid_iff_diag.mp hv
    rw [hnone] at hdiag
    exact absurd hdiag (by simp)

set_option maxRecDepth 40000 in
/-- C2 witness: tampering block 1's payload of a concrete two-block chain is
reported as a hash mismatch at index 1. -/
theorem c2_witness :
    (chainB.tamperData 1 (Json.str "X")).is_chain_valid H1 = false ∧
    (chainB.tamperData 1 (Json.str "X")).validateDiag H1 =
      some (1, FailKind.hashMismatch) := by
  have hr : Reachable H1 chainB :=
    Reachable.add chainA 1 5 (Json.str "B1") chainB
      (@Reachable.init H1 0 "sha256" 0) (by rfl)
  have hbi : chainB.chain[1]? = some blockB := by rfl
  have hdiff : calculateHashFields H1 blockB.hash_algorithm blockB.index
      blockB.timestamp (Json.str "X") blockB.previous_hash blockB.nonce ≠
      blockB.hash := by decide
  exact c2_tamper_detection hr (by omega) hbi hdiff

set_option maxRecDepth 40000 in
/-- C7 counterexample: a chain built with zero `add_block` calls (genesis
only) is within the claim's scope, yet overwriting the genesis block's hash
with a value different from its recomputed digest leaves `is_chain_valid`
true, because the validation loop never examines the genesis block. -/
theorem c7_counterexample :
    Reachable H1 chainA ∧
    "deadbeef" ≠ Block.calculate_hash H1 (create_genesis_block H1 "sha256" 0) ∧
    (chainA.tamperHash 0 "deadbeef").is_chain_valid H1 = true :=
  ⟨@Reachable.init H1 0 "sha256" 0, by decide, rfl⟩

/-- C7 amended: in every chain built purely through `add_block` that holds
at least two blocks, overwriting any block's hash field (genesis included)
with a value different from that block's recomputed digest makes
`is_chain_valid` return false; a genesis-only chain is the sole exception,
as validation never examines genesis. -/
theorem c7_hash_substitution {H : String → String → String} {c : Blockchain}
    (hr : Reachable H c) (hlen2 : 2 ≤ c.chain.length) {i : Nat} {bi : Block}
    {h' : String} (hbi : c.chain[i]? = some bi)
    (hdiff : h' ≠ Block.calculate_hash H bi) :
    (c.tamperHash i h').is_chain_valid H = false := by
  obtain ⟨⟨g, rest, hchain, hvalid⟩, hall⟩ := reachable_good hr
  cases i with
  | zero =>
    rw [hchain] at hbi
    simp only [List.getElem?_cons_zero, Option.some.injEq] at hbi
    subst hbi
    rcases rest with _ | ⟨b₁, rest'⟩
    · rw [hchain] at hlen2
      simp at hlen2
    · have htchain : (c.tamperHash 0 h').chain =
          { g with hash := h' } :: b₁ :: rest' := by
        show setHashAt c.chain 0 h' = _
        rw [hchain]
        rfl
      have hcp : checkPair H c.difficulty g b₁ = true := by
        rw [validFrom_cons, Bool.and_eq_true] at hvalid
        exact hvalid.1
      obtain ⟨hb1calc, hb1prev, hb1pow⟩ := checkPair_iff.mp hcp
      have hghash : g.hash = Block.calculate_hash H g := by
        apply hall g
        rw [hchain]
        simp
      have hfail : diagPair H c.difficulty { g with hash := h' } b₁ =
          some FailKind.prevMismatch := by
        apply diagPair_some_prevMismatch hb1calc
        show b₁.previous_hash ≠ h'
        rw [hb1prev, hghash]
        exact fun he => hdiff he.symm
      have hdiag : (c.tamperHash 0 h').validateDiag H =
          some (1, FailKind.prevMismatch) := by
        unfold Blockchain.validateDiag
        rw [htchain]
        exact diagFrom_cons_fail hfail
      cases hv : (c.tamperHash 0 h').is_chain_valid H
      · rfl
      · exfalso
        have hnone := is_chain_valid_iff_diag.mp hv
        rw [hnone] at hdiag
        exact absurd hdiag (by simp)
  | succ j =>
    rw [hchain] at hbi
    simp only [List.getElem?_cons_succ] at hbi
    obtain ⟨r₁, r₂, hsplit, hlen⟩ :
        ∃ r₁ r₂, rest = r₁ ++ bi :: r₂ ∧ r₁.length = j :=
      ⟨rest.take j, rest.drop (j + 1), getElem?_split rest j bi hbi,
       by rw [List.length_take]
          have := getElem?_some_lt hbi
          omega⟩
    have hset : setHashAt rest j h' = r₁ ++ { bi with hash := h' } :: r₂ := by
      rw [hsplit, ← hlen]
      exact setHashAt_append h' r₁ bi r₂
    have htchain : (c.tamperHash (j + 1) h').chain =
        g :: (r₁ ++ { bi with hash := h' } :: r₂) := by
      show setHashAt c.chain (j + 1) h' = _
      rw [hchain]
      show g :: setHashAt rest j h' = _
      rw [hset]
    have hprefix : validFrom H c.difficulty g r₁ = true := by
      have hv : validFrom H c.difficulty g (r₁ ++ bi :: r₂) = true := by
        rw [← hsplit]
        exact hvalid
      rw [validFrom_append, Bool.and_eq_true] at hv
      exact hv.1
    have hfail : diagPair H c.difficulty (lastOf g r₁) { bi with hash := h' } =
        some FailKind.hashMismatch := by
      apply diagPair_some_hashMismatch
      show h' ≠ Block.calculate_hash H { bi with hash := h' }
      have hcc : Block.calculate_hash H { bi with hash := h' } =
          Block.calculate_hash H bi := rfl
      rw [hcc]
      exact hdiff
    have hdiag : (c.tamperHash (j + 1) h').validateDiag H =
        some (j + 1, FailKind.hashMismatch) := by
      have hdd := diagFrom_firstFail r₁ 1 g { bi with hash := h' } r₂
        hprefix hfail
      have harith : 1 + r₁.length = j + 1 := by omega
      rw [harith] at hdd
      unfold Blockchain.validateDiag
      rw [htchain]
      exact hdd
    cases hv : (c.tamperHash (j + 1) h').is_chain_valid H
    · rfl
    · exfalso
      have hnone := is_chain_valid_iff_diag.mp hv
      rw [hnone] at hdiag
      exact absurd hdiag (by simp)

set_option maxRecDepth 40000 in
/-- C7 witness: overwriting block 1's hash in a concrete two-block chain is
detected. -/
theorem c7_witness :
    (chainB.tamperHash 1 "beef").is_chain_valid H1 = false := by
  have hr : Reachable H1 chainB :=
    Reachable.add chainA 1 5 (Json.str "B1") chainB
      (@Reachable.init H1 0 "sha256" 0) (by rfl)
  have hlen : 2 ≤ chainB.chain.length := by decide
  have hbi : chainB.chain[1]? = some blockB := by rfl
  have hdiff : "beef" ≠ Block.calculate_hash H1 blockB := by decide
  exact c7_hash_substitution hr hlen hbi hdiff

end BC
